import Mathlib

/-!
Shallow embedding of the firominer core cryptographic engine (libcrypto):
bit primitives (`bitwise.hpp`), the KISS99 PRNG (`kiss99.hpp`), the Keccak
permutations and sponges (`keccak.cpp`), the Ethash epoch machinery
(`ethash.cpp`) and the ProgPoW engine (`progpow.cpp`), together with
theorems settling the specification claims about them.

Machine integers are modelled as `Nat` with explicit truncation:
`M32`/`M64` reduce modulo 2^32 / 2^64 exactly where the C++ types do.
Fixed-size digests are little-endian word lists: `hash256` is 8 32-bit
words, `hash512` 16 words, `hash1024` 32 words, `hash2048` 64 words,
matching the `word32s` union view used by the source on a little-endian
host (`le::uint32` is the identity there).
-/

namespace crypto

/-- Truncation to 32 bits, the implicit `uint32_t` wrap-around. -/
def M32 (x : Nat) : Nat := x % 4294967296

/-- Truncation to 64 bits, the implicit `uint64_t` wrap-around. -/
def M64 (x : Nat) : Nat := x % 18446744073709551616

/-- FNV 32-bit prime (`crypto::kFNV_PRIME`). -/
def kFNV_PRIME : Nat := 0x01000193

/-- FNV 32-bit offset basis (`crypto::kFNV_OFFSET_BASIS`). -/
def kFNV_OFFSET_BASIS : Nat := 0x811c9dc5

/-- `crypto::rotl32`: left circular rotation; the shift is reduced mod 32
(`s &= 31`) and `n >> ((-s) & 31)` is `n >> ((32 - s) % 32)`. -/
def rotl32 (n s : Nat) : Nat :=
  let s := s % 32
  M32 ((n <<< s) ||| (n >>> ((32 - s) % 32)))

/-- `crypto::rotr32`: right circular rotation with the same masking. -/
def rotr32 (n s : Nat) : Nat :=
  let s := s % 32
  M32 ((n >>> s) ||| (n <<< ((32 - s) % 32)))

/-- 64-bit left rotation (`crypto::rotl64`), used by `keccakf1600`. -/
def rotl64 (n s : Nat) : Nat :=
  let s := s % 64
  M64 ((n <<< s) ||| (n >>> ((64 - s) % 64)))

/-- `crypto::clz32`: number of leading zero bits of a `uint32_t`
(32 for zero, else `31 - position of the highest set bit`). -/
def clz32 (v : Nat) : Nat := if v = 0 then 32 else 31 - Nat.log2 v

/-- `crypto::popcnt32` (`__builtin_popcount`): number of set bits. -/
def popcnt32 (v : Nat) : Nat :=
  if h : v = 0 then 0 else v % 2 + popcnt32 (v / 2)
decreasing_by exact Nat.div_lt_self (Nat.pos_of_ne_zero h) (by omega)

/-- `crypto::mul_hi32`: high half of the 64-bit product of two 32-bit values. -/
def mul_hi32 (x y : Nat) : Nat := (x * y) / 4294967296

/-- `crypto::fnv1`: `(u * kFNV_PRIME) ^ v`, multiplication wrapping mod 2^32. -/
def fnv1 (u v : Nat) : Nat := M32 (u * kFNV_PRIME) ^^^ v

/-- `crypto::fnv1a`: `((u ^ v) * kFNV_PRIME)` wrapping mod 2^32. -/
def fnv1a (u v : Nat) : Nat := M32 ((u ^^^ v) * kFNV_PRIME)

/-- KISS99 PRNG state (`crypto::kiss99`), four 32-bit words. -/
structure kiss99 where
  z : Nat
  w : Nat
  jsr : Nat
  jcong : Nat
deriving DecidableEq, Repr

/-- One step of `crypto::kiss99::operator()`: returns the drawn 32-bit
value and the advanced state.  All arithmetic wraps mod 2^32. -/
def kiss99.next (k : kiss99) : Nat × kiss99 :=
  let z := M32 (36969 * (k.z &&& 0xffff) + (k.z >>> 16))
  let w := M32 (18000 * (k.w &&& 0xffff) + (k.w >>> 16))
  let jcong := M32 (69069 * k.jcong + 1234567)
  let jsr := k.jsr ^^^ M32 (k.jsr <<< 17)
  let jsr := jsr ^^^ (jsr >>> 13)
  let jsr := jsr ^^^ M32 (jsr <<< 5)
  let t := M32 (M32 (z <<< 16) + w)
  (M32 ((t ^^^ jcong) + jsr), ⟨z, w, jsr, jcong⟩)

end crypto

namespace ethash

open crypto

/-- Bitwise complement of a 64-bit lane (`~x` on `uint64_t`). -/
def compl64 (x : Nat) : Nat := x ^^^ 0xffffffffffffffff

/-- Bitwise complement of a 32-bit lane (`~x` on `uint32_t`). -/
def compl32 (x : Nat) : Nat := x ^^^ 0xffffffff

/-- `ethash::round_constants_64`: the 24 Keccak-f[1600] round constants. -/
def round_constants_64 : List Nat :=
  [0x0000000000000001, 0x0000000000008082, 0x800000000000808a, 0x8000000080008000,
   0x000000000000808b, 0x0000000080000001, 0x8000000080008081, 0x8000000000008009,
   0x000000000000008a, 0x0000000000000088, 0x0000000080008009, 0x000000008000000a,
   0x000000008000808b, 0x800000000000008b, 0x8000000000008089, 0x8000000000008003,
   0x8000000000008002, 0x8000000000000080, 0x000000000000800a, 0x800000008000000a,
   0x8000000080008081, 0x8000000000008080, 0x0000000080000001, 0x8000000080008008]

/-- `ethash::round_constants_32`: 32-bit round constants; the Keccak-f[800]
loop uses the first 22 of them. -/
def round_constants_32 : List Nat :=
  [0x00000001, 0x00008082, 0x0000808A, 0x80008000, 0x0000808B, 0x80000001,
   0x80008081, 0x00008009, 0x0000008A, 0x00000088, 0x80008009, 0x8000000A,
   0x8000808B, 0x0000008B, 0x00008089, 0x00008003, 0x00008002, 0x00000080,
   0x0000800A, 0x8000000A, 0x80008081, 0x00008080, 0x80000001, 0x80008008]

/-- One round of Keccak-f[1600] exactly as unrolled in
`keccakf1600_implementation` (the source unrolls two textually identical
rounds per loop iteration; `d0..d4` are its `Da..Du`, `b0..b4` its
`Ba..Bu`, recomputed for each output group). -/
def keccakRound64 (s : List Nat) (rc : Nat) : List Nat :=
  match s with
  | [aba, abe, abi, abo, abu,
     aga, age, agi, ago, agu,
     aka, ake, aki, ako, aku,
     ama, ame, ami, amo, amu,
     asa, ase, asi, aso, asu] =>
    let c0 := aba ^^^ aga ^^^ aka ^^^ ama ^^^ asa
    let c1 := abe ^^^ age ^^^ ake ^^^ ame ^^^ ase
    let c2 := abi ^^^ agi ^^^ aki ^^^ ami ^^^ asi
    let c3 := abo ^^^ ago ^^^ ako ^^^ amo ^^^ aso
    let c4 := abu ^^^ agu ^^^ aku ^^^ amu ^^^ asu
    let d0 := c4 ^^^ rotl64 c1 1
    let d1 := c0 ^^^ rotl64 c2 1
    let d2 := c1 ^^^ rotl64 c3 1
    let d3 := c2 ^^^ rotl64 c4 1
    let d4 := c3 ^^^ rotl64 c0 1
    let b0 := aba ^^^ d0
    let b1 := rotl64 (age ^^^ d1) 44
    let b2 := rotl64 (aki ^^^ d2) 43
    let b3 := rotl64 (amo ^^^ d3) 21
    let b4 := rotl64 (asu ^^^ d4) 14
    let eba := b0 ^^^ (compl64 b1 &&& b2) ^^^ rc
    let ebe := b1 ^^^ (compl64 b2 &&& b3)
    let ebi := b2 ^^^ (compl64 b3 &&& b4)
    let ebo := b3 ^^^ (compl64 b4 &&& b0)
    let ebu := b4 ^^^ (compl64 b0 &&& b1)
    let b0 := rotl64 (abo ^^^ d3) 28
    let b1 := rotl64 (agu ^^^ d4) 20
    let b2 := rotl64 (aka ^^^ d0) 3
    let b3 := rotl64 (ame ^^^ d1) 45
    let b4 := rotl64 (asi ^^^ d2) 61
    let ega := b0 ^^^ (compl64 b1 &&& b2)
    let ege := b1 ^^^ (compl64 b2 &&& b3)
    let egi := b2 ^^^ (compl64 b3 &&& b4)
    let ego := b3 ^^^ (compl64 b4 &&& b0)
    let egu := b4 ^^^ (compl64 b0 &&& b1)
    let b0 := rotl64 (abe ^^^ d1) 1
    let b1 := rotl64 (agi ^^^ d2) 6
    let b2 := rotl64 (ako ^^^ d3) 25
    let b3 := rotl64 (amu ^^^ d4) 8
    let b4 := rotl64 (asa ^^^ d0) 18
    let eka := b0 ^^^ (compl64 b1 &&& b2)
    let eke := b1 ^^^ (compl64 b2 &&& b3)
    let eki := b2 ^^^ (compl64 b3 &&& b4)
    let eko := b3 ^^^ (compl64 b4 &&& b0)
    let eku := b4 ^^^ (compl64 b0 &&& b1)
    let b0 := rotl64 (abu ^^^ d4) 27
    let b1 := rotl64 (aga ^^^ d0) 36
    let b2 := rotl64 (ake ^^^ d1) 10
    let b3 := rotl64 (ami ^^^ d2) 15
    let b4 := rotl64 (aso ^^^ d3) 56
    let ema := b0 ^^^ (compl64 b1 &&& b2)
    let eme := b1 ^^^ (compl64 b2 &&& b3)
    let emi := b2 ^^^ (compl64 b3 &&& b4)
    let emo := b3 ^^^ (compl64 b4 &&& b0)
    let emu := b4 ^^^ (compl64 b0 &&& b1)
    let b0 := rotl64 (abi ^^^ d2) 62
    let b1 := rotl64 (ago ^^^ d3) 55
    let b2 := rotl64 (aku ^^^ d4) 39
    let b3 := rotl64 (ama ^^^ d0) 41
    let b4 := rotl64 (ase ^^^ d1) 2
    let esa := b0 ^^^ (compl64 b1 &&& b2)
    let ese := b1 ^^^ (compl64 b2 &&& b3)
    let esi := b2 ^^^ (compl64 b3 &&& b4)
    let eso := b3 ^^^ (compl64 b4 &&& b0)
    let esu := b4 ^^^ (compl64 b0 &&& b1)
    [eba, ebe, ebi, ebo, ebu,
     ega, ege, egi, ego, egu,
     eka, eke, eki, eko, eku,
     ema, eme, emi, emo, emu,
     esa, ese, esi, eso, esu]
  | _ => s

/-- `ethash::keccakf1600`: 24 rounds over a 25-word 64-bit state. -/
def keccakf1600 (s : List Nat) : List Nat :=
  round_constants_64.foldl keccakRound64 s

/-- One round of Keccak-f[800] as unrolled in `keccakf800_implementation`:
same structure as the 64-bit round with 32-bit lanes and the reduced
rotation offsets of the source. -/
def keccakRound32 (s : List Nat) (rc : Nat) : List Nat :=
  match s with
  | [aba, abe, abi, abo, abu,
     aga, age, agi, ago, agu,
     aka, ake, aki, ako, aku,
     ama, ame, ami, amo, amu,
     asa, ase, asi, aso, asu] =>
    let c0 := aba ^^^ aga ^^^ aka ^^^ ama ^^^ asa
    let c1 := abe ^^^ age ^^^ ake ^^^ ame ^^^ ase
    let c2 := abi ^^^ agi ^^^ aki ^^^ ami ^^^ asi
    let c3 := abo ^^^ ago ^^^ ako ^^^ amo ^^^ aso
    let c4 := abu ^^^ agu ^^^ aku ^^^ amu ^^^ asu
    let d0 := c4 ^^^ rotl32 c1 1
    let d1 := c0 ^^^ rotl32 c2 1
    let d2 := c1 ^^^ rotl32 c3 1
    let d3 := c2 ^^^ rotl32 c4 1
    let d4 := c3 ^^^ rotl32 c0 1
    let b0 := aba ^^^ d0
    let b1 := rotl32 (age ^^^ d1) 12
    let b2 := rotl32 (aki ^^^ d2) 11
    let b3 := rotl32 (amo ^^^ d3) 21
    let b4 := rotl32 (asu ^^^ d4) 14
    let eba := b0 ^^^ (compl32 b1 &&& b2) ^^^ rc
    let ebe := b1 ^^^ (compl32 b2 &&& b3)
    let ebi := b2 ^^^ (compl32 b3 &&& b4)
    let ebo := b3 ^^^ (compl32 b4 &&& b0)
    let ebu := b4 ^^^ (compl32 b0 &&& b1)
    let b0 := rotl32 (abo ^^^ d3) 28
    let b1 := rotl32 (agu ^^^ d4) 20
    let b2 := rotl32 (aka ^^^ d0) 3
    let b3 := rotl32 (ame ^^^ d1) 13
    let b4 := rotl32 (asi ^^^ d2) 29
    let ega := b0 ^^^ (compl32 b1 &&& b2)
    let ege := b1 ^^^ (compl32 b2 &&& b3)
    let egi := b2 ^^^ (compl32 b3 &&& b4)
    let ego := b3 ^^^ (compl32 b4 &&& b0)
    let egu := b4 ^^^ (compl32 b0 &&& b1)
    let b0 := rotl32 (abe ^^^ d1) 1
    let b1 := rotl32 (agi ^^^ d2) 6
    let b2 := rotl32 (ako ^^^ d3) 25
    let b3 := rotl32 (amu ^^^ d4) 8
    let b4 := rotl32 (asa ^^^ d0) 18
    let eka := b0 ^^^ (compl32 b1 &&& b2)
    let eke := b1 ^^^ (compl32 b2 &&& b3)
    let eki := b2 ^^^ (compl32 b3 &&& b4)
    let eko := b3 ^^^ (compl32 b4 &&& b0)
    let eku := b4 ^^^ (compl32 b0 &&& b1)
    let b0 := rotl32 (abu ^^^ d4) 27
    let b1 := rotl32 (aga ^^^ d0) 4
    let b2 := rotl32 (ake ^^^ d1) 10
    let b3 := rotl32 (ami ^^^ d2) 15
    let b4 := rotl32 (aso ^^^ d3) 24
    let ema := b0 ^^^ (compl32 b1 &&& b2)
    let eme := b1 ^^^ (compl32 b2 &&& b3)
    let emi := b2 ^^^ (compl32 b3 &&& b4)
    let emo := b3 ^^^ (compl32 b4 &&& b0)
    let emu := b4 ^^^ (compl32 b0 &&& b1)
    let b0 := rotl32 (abi ^^^ d2) 30
    let b1 := rotl32 (ago ^^^ d3) 23
    let b2 := rotl32 (aku ^^^ d4) 7
    let b3 := rotl32 (ama ^^^ d0) 9
    let b4 := rotl32 (ase ^^^ d1) 2
    let esa := b0 ^^^ (compl32 b1 &&& b2)
    let ese := b1 ^^^ (compl32 b2 &&& b3)
    let esi := b2 ^^^ (compl32 b3 &&& b4)
    let eso := b3 ^^^ (compl32 b4 &&& b0)
    let esu := b4 ^^^ (compl32 b0 &&& b1)
    [eba, ebe, ebi, ebo, ebu,
     ega, ege, egi, ego, egu,
     eka, eke, eki, eko, eku,
     ema, eme, emi, emo, emu,
     esa, ese, esi, eso, esu]
  | _ => s

/-- `ethash::keccakf800`: 22 rounds over a 25-word 32-bit state
(the loop runs `round < 22`, using the first 22 round constants). -/
def keccakf800 (s : List Nat) : List Nat :=
  (round_constants_32.take 22).foldl keccakRound32 s

end ethash

namespace ethash

open crypto

/-- 256-bit digest: 8 little-endian 32-bit words (`hash256.word32s`). -/
abbrev hash256 := List Nat

/-- 512-bit digest: 16 little-endian 32-bit words (`hash512.word32s`). -/
abbrev hash512 := List Nat

/-- The all-zero `hash256` (`hash256 seed{}`). -/
def zero256 : hash256 := List.replicate 8 0

/-- Two consecutive LE 32-bit words viewed as one 64-bit word
(the `word64s` union view on a little-endian host). -/
def w64 (lo hi : Nat) : Nat := lo + 4294967296 * hi

/-- `ethash::keccak256` on a 32-byte digest input: on a little-endian host
the sponge absorbs the digest as four LE 64-bit loads into state words
0..3, pads with the `0x01` byte in word 4 and the top bit of word 16
(rate 136 bytes = 17 words), permutes once and squeezes words 0..3. -/
def keccak256H (h : hash256) : hash256 :=
  let g := fun i => h.getD i 0
  let st := [w64 (g 0) (g 1), w64 (g 2) (g 3), w64 (g 4) (g 5), w64 (g 6) (g 7),
             0x01, 0, 0, 0, 0, 0, 0, 0, 0, 0, 0, 0,
             0x8000000000000000, 0, 0, 0, 0, 0, 0, 0, 0]
  let out := keccakf1600 st
  let o := fun i => out.getD i 0
  [M32 (o 0), M32 (o 0 >>> 32), M32 (o 1), M32 (o 1 >>> 32),
   M32 (o 2), M32 (o 2 >>> 32), M32 (o 3), M32 (o 3 >>> 32)]

/-- `ethash::keccak512` on a 64-byte digest input: absorbs eight LE 64-bit
words into state words 0..7; the rate is 72 bytes = 9 words, so the
`0x01` padding byte and the final bit both land in word 8
(`state[8] ^= 0x8000000000000001`); permutes once, squeezes words 0..7. -/
def keccak512H (h : hash512) : hash512 :=
  let g := fun i => h.getD i 0
  let st := [w64 (g 0) (g 1), w64 (g 2) (g 3), w64 (g 4) (g 5), w64 (g 6) (g 7),
             w64 (g 8) (g 9), w64 (g 10) (g 11), w64 (g 12) (g 13), w64 (g 14) (g 15),
             0x8000000000000001, 0, 0, 0, 0, 0, 0, 0, 0, 0, 0, 0, 0, 0, 0, 0, 0]
  let out := keccakf1600 st
  let o := fun i => out.getD i 0
  [M32 (o 0), M32 (o 0 >>> 32), M32 (o 1), M32 (o 1 >>> 32),
   M32 (o 2), M32 (o 2 >>> 32), M32 (o 3), M32 (o 3 >>> 32),
   M32 (o 4), M32 (o 4 >>> 32), M32 (o 5), M32 (o 5 >>> 32),
   M32 (o 6), M32 (o 6 >>> 32), M32 (o 7), M32 (o 7 >>> 32)]

/-- `ethash::is_equal`: byte-wise `memcmp`, i.e. equality of the canonical
word lists. -/
def is_equal (a b : hash256) : Bool := a == b

/-- Byte swap of a 64-bit word (`be::uint64` on a little-endian host). -/
def bswap64 (v : Nat) : Nat :=
  (v % 256) * 72057594037927936 +
  (v / 256 % 256) * 281474976710656 +
  (v / 65536 % 256) * 1099511627776 +
  (v / 16777216 % 256) * 4294967296 +
  (v / 4294967296 % 256) * 16777216 +
  (v / 1099511627776 % 256) * 65536 +
  (v / 281474976710656 % 256) * 256 +
  (v / 72057594037927936 % 256)

/-- The four `word64s` of a 256-bit digest (LE composition of word pairs). -/
def word64sOf (h : hash256) : List Nat :=
  [w64 (h.getD 0 0) (h.getD 1 0), w64 (h.getD 2 0) (h.getD 3 0),
   w64 (h.getD 4 0) (h.getD 5 0), w64 (h.getD 6 0) (h.getD 7 0)]

/-- The four big-endian 64-bit words `be::uint64(a.word64s[i])` compared by
`ethash::is_less_or_equal`, most significant first. -/
def beWords (h : hash256) : List Nat := (word64sOf h).map bswap64

/-- The word-by-word early-exit comparison loop of `ethash::is_less_or_equal`:
greater word ⇒ false, smaller word ⇒ true, all equal ⇒ true. -/
def lexLe : List Nat → List Nat → Bool
  | x :: xs, y :: ys =>
    if y < x then false
    else if x < y then true
    else lexLe xs ys
  | _, _ => true

/-- `ethash::is_less_or_equal`: big-endian 256-bit unsigned comparison by
lexicographic scan of the four byte-swapped 64-bit words. -/
def is_less_or_equal (a b : hash256) : Bool := lexLe (beWords a) (beWords b)

/-- Value of a big-endian word list (most significant first, base 2^64). -/
def beValAux : List Nat → Nat
  | [] => 0
  | x :: t => x * 18446744073709551616 ^ t.length + beValAux t

/-- The number a 256-bit digest denotes under the big-endian reading used
by `is_less_or_equal`. -/
def beValue256 (h : hash256) : Nat := beValAux (beWords h)

/-- `ethash::calculate_seed_from_epoch`: iterate `keccak256` from the
all-zero seed, once per epoch. -/
def calculate_seed_from_epoch : Nat → hash256
  | 0 => zero256
  | e + 1 => keccak256H (calculate_seed_from_epoch e)

/-- The linear-scan loop of `ethash::calculate_epoch_from_seed`: starting
from `cached_epoch_seed = {}` it compares and advances by `keccak256` for
up to `num_tries = 30000` iterations (`fuel` counts the remaining tries,
`i` the current epoch).  Returns the result together with the new
`(cached_epoch_number, cached_epoch_seed)` thread-local pair. -/
def epochScanAux (seed : hash256) : Nat → Nat → hash256 → Option Nat × Option Nat × hash256
  | 0, _, cur => (none, none, cur)
  | fuel + 1, i, cur =>
    if is_equal cur seed then (some i, some i, cur)
    else epochScanAux seed fuel (i + 1) (keccak256H cur)

/-- `ethash::calculate_epoch_from_seed` with the thread-local one-entry
cache `(cached_epoch_number, cached_epoch_seed)` made an explicit argument;
returns the result and the updated cache pair. -/
def calculate_epoch_from_seed (cachedNum : Option Nat) (cachedSeed : hash256)
    (seed : hash256) : Option Nat × Option Nat × hash256 :=
  match cachedNum with
  | some n =>
    if is_equal seed cachedSeed then (some n, some n, cachedSeed)
    else
      let next := keccak256H cachedSeed
      if is_equal next seed then (some (n + 1), some (n + 1), next)
      else epochScanAux seed 30000 0 zero256
  | none => epochScanAux seed 30000 0 zero256

end ethash

namespace ethash

open crypto

/-- The odd-trial-divisor loop of `ethash::is_unsigned_odd_prime`:
`for (d = 3; d * d <= number; d += 2) if (number % d == 0) return false;
return true`.  `true` means the loop completed without finding a divisor.
`fuel` bounds the number of iterations for structural recursion; the loop
runs at most `(sqrt number - 3) / 2 + 1` times, so the initial fuel
`number` used below never runs out before `d * d > number`. -/
def trialLoop (number : Nat) : Nat → Nat → Bool
  | 0, _ => true
  | fuel + 1, d =>
    if d * d ≤ number then
      if number % d = 0 then false else trialLoop number fuel (d + 2)
    else true

/-- `ethash::is_unsigned_odd_prime`: reject even numbers, then trial-divide
by odd `d` with `d * d <= number`. -/
def is_unsigned_odd_prime (number : Nat) : Bool :=
  if number &&& 1 = 0 then false else trialLoop number number 3

/-- The descending `while (!is_unsigned_odd_prime(n)) n -= 2;` search of
`ethash::find_largest_unsigned_prime`, with explicit fuel.  Starting from
an odd `n` the chain `n, n-2, …` reaches `1` (where the test is vacuously
true) after `(n-1)/2` steps, so fuel `n` always suffices. -/
def findLargestAux : Nat → Nat → Nat
  | 0, n => n
  | fuel + 1, n => if is_unsigned_odd_prime n then n else findLargestAux fuel (n - 2)

/-- `ethash::find_largest_unsigned_prime`: 0 below 2; otherwise test the
largest odd number ≤ `upper_bound` and descend by 2. -/
def find_largest_unsigned_prime (upper_bound : Nat) : Nat :=
  if upper_bound < 2 then 0
  else
    let n := if upper_bound &&& 1 = 1 then upper_bound else upper_bound - 1
    findLargestAux n n

/-- Modelled from the spec: `light_cache_init_size = 16 MiB` and
`light_cache_growth = 128 KiB` (§4.D); the constants live in the
`ethash.hpp` header that is not part of the provided sources.  Divided by
the 64-byte `hash512` item size they give 262144 and 2048 items. -/
def light_cache_num_items_init : Nat := 16777216 / 64

/-- Modelled from the spec: per-epoch light cache growth in items. -/
def light_cache_num_items_growth : Nat := 131072 / 64

/-- Modelled from the spec: `dataset_init = 1 GiB`, `dataset_growth = 8 MiB`
(§4.D), divided by the 128-byte `hash1024` item size: 8388608 and 65536. -/
def full_dataset_num_items_init : Nat := 1073741824 / 128

/-- Modelled from the spec: per-epoch full dataset growth in items. -/
def full_dataset_num_items_growth : Nat := 8388608 / 128

/-- `ethash::calculate_light_cache_num_items`: the largest prime not above
`num_items_init + epoch_number * num_items_growth` (`uint32` arithmetic). -/
def calculate_light_cache_num_items (epoch_number : Nat) : Nat :=
  find_largest_unsigned_prime
    (M32 (light_cache_num_items_init + epoch_number * light_cache_num_items_growth))

/-- `ethash::calculate_full_dataset_num_items`: the largest prime not above
`num_items_init + epoch_number * num_items_growth` (`uint32` arithmetic). -/
def calculate_full_dataset_num_items (epoch_number : Nat) : Nat :=
  find_largest_unsigned_prime
    (M32 (full_dataset_num_items_init + epoch_number * full_dataset_num_items_growth))

/-- `ethash::detail::fnv1_512`: 16 parallel 32-bit `fnv1` lanes. -/
def fnv1_512 (a b : hash512) : hash512 :=
  (List.range 16).map fun i => fnv1 (a.getD i 0) (b.getD i 0)

/-- The epoch context (`ethash::epoch_context`).  `light_cache` is the
ordered `hash512` sequence; `l1_cache` and the full-dataset access used by
ProgPoW (`ethash::detail::lazy_lookup_1024`, whose definition is not among
the provided sources; the lazy cache fill is value-transparent, so it is
modelled as a plain index-to-item function) are abstract word fetchers. -/
structure epoch_context where
  epoch_number : Nat
  light_cache_num_items : Nat
  light_cache : List hash512
  full_dataset_num_items : Nat
  l1_cache : Nat → Nat
  lookup1024 : Nat → List Nat

/-- The all-zero 512-bit digest, the default for out-of-range fetches. -/
def zero512 : hash512 := List.replicate 16 0

/-- Constructor body of `ethash::detail::item_state`: fetch
`cache[index % num_cache_items]`, XOR the (32-bit) index into word 0 and
apply `keccak512`.  The `seed` member is the constructor's `index`. -/
def item_state_init (ctx : epoch_context) (index : Nat) : hash512 :=
  let m := ctx.light_cache.getD (index % ctx.light_cache_num_items) zero512
  let m := m.set 0 (m.getD 0 0 ^^^ M32 index)
  keccak512H m

/-- `ethash::detail::item_state::update`: one of the 256 parent-mixing
rounds; `num_words = 16`. -/
def item_state_update (ctx : epoch_context) (seed : Nat) (mix : hash512)
    (round : Nat) : hash512 :=
  let t := fnv1 (seed ^^^ round) (mix.getD (round % 16) 0)
  let parent_index := t % ctx.light_cache_num_items
  fnv1_512 mix (ctx.light_cache.getD parent_index zero512)

/-- `ethash::detail::item_state::final`: closing `keccak512`. -/
def item_state_final (mix : hash512) : hash512 := keccak512H mix

/-- `ethash::full_dataset_item_parents` = 256. -/
def full_dataset_item_parents : Nat := 256

/-- `ethash::detail::calculate_dataset_item_1024`: the two 512-bit
sub-items `2j` and `2j+1` (32-bit truncated indexes) stepped together
through the same 256 parent rounds, finals concatenated. -/
def calculate_dataset_item_1024 (ctx : epoch_context) (index : Nat) : List Nat :=
  let idx0 := M32 (2 * index)
  let idx1 := M32 (M32 (2 * index) + 1)
  let start := (item_state_init ctx idx0, item_state_init ctx idx1)
  let fin := (List.range full_dataset_item_parents).foldl
    (fun (p : hash512 × hash512) i =>
      (item_state_update ctx idx0 p.1 i, item_state_update ctx idx1 p.2 i))
    start
  item_state_final fin.1 ++ item_state_final fin.2

/-- `ethash::detail::calculate_dataset_item_2048`: four 512-bit sub-items
`4j .. 4j+3` stepped together, finals concatenated. -/
def calculate_dataset_item_2048 (ctx : epoch_context) (index : Nat) : List Nat :=
  let idx0 := M32 (4 * index)
  let idx1 := M32 (M32 (4 * index) + 1)
  let idx2 := M32 (M32 (4 * index) + 2)
  let idx3 := M32 (M32 (4 * index) + 3)
  let start := (item_state_init ctx idx0, item_state_init ctx idx1,
                item_state_init ctx idx2, item_state_init ctx idx3)
  let fin := (List.range full_dataset_item_parents).foldl
    (fun (p : hash512 × hash512 × hash512 × hash512) i =>
      (item_state_update ctx idx0 p.1 i, item_state_update ctx idx1 p.2.1 i,
       item_state_update ctx idx2 p.2.2.1 i, item_state_update ctx idx3 p.2.2.2 i))
    start
  item_state_final fin.1 ++ item_state_final fin.2.1 ++
    item_state_final fin.2.2.1 ++ item_state_final fin.2.2.2

/-- The single-sub-item dataset algorithm as the spec §4.D states it: init
from `cache[k mod L]` with the index XOR-ed into word 0 and `keccak512`
applied, then 256 sequential `fnv1` parent rounds, then a final
`keccak512` — one sub-item computed independently, start to finish. -/
def dataset_sub_item_seq (ctx : epoch_context) (k : Nat) : hash512 :=
  item_state_final
    ((List.range full_dataset_item_parents).foldl (item_state_update ctx k)
      (item_state_init ctx k))

/-- Little-endian byte list of a value, least significant byte first
(`intx::as_bytes` view of a `uint256` on a little-endian host). -/
def leBytes : Nat → Nat → List Nat
  | 0, _ => []
  | n + 1, v => v % 256 :: leBytes n (v / 256)

/-- Number denoted by a little-endian byte list. -/
def ofLEBytes : List Nat → Nat
  | [] => 0
  | b :: t => b + 256 * ofLEBytes t

/-- `intx::bswap` on a 256-bit value: reverse the 32-byte representation. -/
def bswap256 (v : Nat) : Nat := ofLEBytes (leBytes 32 v).reverse

/-- Big-endian byte serialization of a 256-bit value, most significant
byte first. -/
def beBytes256 (v : Nat) : List Nat := (leBytes 32 v).reverse

/-- The numerator constant of `ethash::get_boundary_from_diff`:
64 hex `f` digits, i.e. 2^256 - 1. -/
def boundary_dividend : Nat :=
  0xffffffffffffffffffffffffffffffffffffffffffffffffffffffffffffffff

/-- `ethash::get_boundary_from_diff`, output as the 32-byte array the
source memcpy-s into `ret.bytes`: for `difficulty > 1` the byte-swapped
quotient `dividend / difficulty`, otherwise the bytes of the dividend
itself (no division). -/
def get_boundary_from_diff (difficulty : Nat) : List Nat :=
  if difficulty > 1 then leBytes 32 (bswap256 (boundary_dividend / difficulty))
  else leBytes 32 boundary_dividend

end ethash

namespace progpow

open crypto ethash

/-- `progpow::kPeriodLength` (progpow.hpp line 18): number of blocks before
the random program changes. -/
def kPeriodLength : Nat := 1

/-- `progpow::kLanes`. -/
def kLanes : Nat := 16

/-- `progpow::kRegs`. -/
def kRegs : Nat := 32

/-- `progpow::kDag_loads`. -/
def kDag_loads : Nat := 4

/-- `progpow::kCache_bytes`. -/
def kCache_bytes : Nat := 16 * 1024

/-- `progpow::kDag_count`. -/
def kDag_count : Nat := 64

/-- `progpow::kCache_count`. -/
def kCache_count : Nat := 11

/-- `progpow::kMath_count`. -/
def kMath_count : Nat := 18

/-- `progpow::kWords_per_lane` = `sizeof(hash2048) / (sizeof(uint32_t) * kLanes)` = 4. -/
def kWords_per_lane : Nat := 256 / (4 * kLanes)

/-- Modelled from the spec: `ethash::kL1_cache_words` = 16384 / 4 = 4096
32-bit words (§4.D L1 cache); the `ethash.hpp` header defining it is not
among the provided sources. -/
def kL1_cache_words : Nat := 16384 / 4

/-- `std::swap(a[i], a[j])` on a word array. -/
def listSwap (l : List Nat) (i j : Nat) : List Nat :=
  (l.set i (l.getD j 0)).set j (l.getD i 0)

/-- The interleaved Fisher-Yates loop of the `mix_rng_state` constructor:
`for (i = kRegs; i > 1; --i)` swap `dst_seq[i-1]` with `dst_seq[rng() % i]`,
then `src_seq[i-1]` with `src_seq[rng() % i]` — the dst swap draws from the
shared KISS99 stream before the src swap at each index. -/
def fyLoop : Nat → kiss99 → List Nat → List Nat → kiss99 × List Nat × List Nat
  | 0, rng, d, s => (rng, d, s)
  | 1, rng, d, s => (rng, d, s)
  | i + 2, rng, d, s =>
    let r1 := rng.next
    let d2 := listSwap d (i + 1) (r1.1 % (i + 2))
    let r2 := r1.2.next
    let s2 := listSwap s (i + 1) (r2.1 % (i + 2))
    fyLoop (i + 1) r2.2 d2 s2

/-- ProgPoW mix RNG state (`progpow::mix_rng_state`): KISS99 instance, the
two round-robin cursors and the two shuffled index sequences. -/
structure mix_rng_state where
  rng : kiss99
  dst_counter : Nat
  src_counter : Nat
  dst_seq : List Nat
  src_seq : List Nat
deriving DecidableEq, Repr

/-- The KISS99 seeding chain of the `mix_rng_state` constructor:
`z = fnv1a(basis, lo); w = fnv1a(z, hi); jsr = fnv1a(w, lo);
jcong = fnv1a(jsr, hi)`. -/
def mix_rng_state.initKiss (seed : Nat) : kiss99 :=
  let seed_lo := M32 seed
  let seed_hi := M32 (seed >>> 32)
  let z := fnv1a kFNV_OFFSET_BASIS seed_lo
  let w := fnv1a z seed_hi
  let jsr := fnv1a w seed_lo
  let jcong := fnv1a jsr seed_hi
  ⟨z, w, jsr, jcong⟩

/-- `progpow::mix_rng_state::mix_rng_state(seed)`: seed the KISS99 state by
the `fnv1a` chain over the seed halves, set both sequences to the identity
and shuffle them with the interleaved Fisher-Yates loop. -/
def mix_rng_state.init (seed : Nat) : mix_rng_state :=
  let r := fyLoop kRegs (mix_rng_state.initKiss seed) (List.range kRegs) (List.range kRegs)
  ⟨r.1, 0, 0, r.2.1, r.2.2⟩

/-- `mix_rng_state::next_dst`: `dst_seq[(dst_counter++) % kRegs]`. -/
def mix_rng_state.next_dst (s : mix_rng_state) : Nat × mix_rng_state :=
  (s.dst_seq.getD (s.dst_counter % kRegs) 0, { s with dst_counter := s.dst_counter + 1 })

/-- `mix_rng_state::next_src`: `src_seq[(src_counter++) % kRegs]`. -/
def mix_rng_state.next_src (s : mix_rng_state) : Nat × mix_rng_state :=
  (s.src_seq.getD (s.src_counter % kRegs) 0, { s with src_counter := s.src_counter + 1 })

/-- Draw one KISS99 value, keeping the rest of the mix state
(`state.rng()` in the source). -/
def mix_rng_state.draw (s : mix_rng_state) : Nat × mix_rng_state :=
  let (v, rng) := s.rng.next
  (v, { s with rng := rng })

/-- `progpow::random_merge`: merge `b` into `a` by `sel % 4`, with the
non-zero rotation selector `x = (sel >> 16) % 31 + 1`. -/
def random_merge (a b sel : Nat) : Nat :=
  let x := (sel >>> 16) % 31 + 1
  if sel % 4 = 0 then M32 (a * 33 + b)
  else if sel % 4 = 1 then M32 ((a ^^^ b) * 33)
  else if sel % 4 = 2 then rotl32 a x ^^^ b
  else rotr32 a x ^^^ b

/-- `progpow::random_math`: one of 11 two-operand 32-bit operations
selected by `sel % 11`. -/
def random_math (a b sel : Nat) : Nat :=
  if sel % 11 = 0 then M32 (a + b)
  else if sel % 11 = 1 then M32 (a * b)
  else if sel % 11 = 2 then mul_hi32 a b
  else if sel % 11 = 3 then min a b
  else if sel % 11 = 4 then rotl32 a b
  else if sel % 11 = 5 then rotr32 a b
  else if sel % 11 = 6 then a &&& b
  else if sel % 11 = 7 then a ||| b
  else if sel % 11 = 8 then a ^^^ b
  else if sel % 11 = 9 then clz32 a + clz32 b
  else popcnt32 a + popcnt32 b

/-- The lane/register matrix `mix_t`: `kLanes` rows of `kRegs` 32-bit words. -/
abbrev mix_t := List (List Nat)

/-- Read `mix.at(l).at(r)`. -/
def mixGet (mix : mix_t) (l r : Nat) : Nat := (mix.getD l []).getD r 0

/-- Write `mix.at(l).at(r) = v`. -/
def mixSet (mix : mix_t) (l r v : Nat) : mix_t := mix.set l ((mix.getD l []).set r v)

/-- Successive draws of a KISS99 stream (`for (auto &row : mix.at(l)) row = rng();`). -/
def kissStream : kiss99 → Nat → List Nat
  | _, 0 => []
  | k, n + 1 =>
    let (v, k2) := k.next
    v :: kissStream k2 n

/-- `progpow::init_mix`: per-lane KISS99 generators seeded from the 64-bit
seed halves and the lane number, each filling its 32 registers. -/
def init_mix (seed : Nat) : mix_t :=
  let z := fnv1a kFNV_OFFSET_BASIS (M32 seed)
  let w := fnv1a z (M32 (seed >>> 32))
  (List.range kLanes).map fun l =>
    let jsr := fnv1a w l
    let jcong := fnv1a jsr l
    kissStream ⟨z, w, jsr, jcong⟩ kRegs

/-- One `i`-step of the cache/math phase loop of `progpow::round`
(`for i < max(kCache_count, kMath_count)`). -/
def roundPhaseStep (ctx : epoch_context) (p : mix_t × mix_rng_state) (i : Nat) :
    mix_t × mix_rng_state :=
  let (mix, state) := p
  let (mix, state) :=
    if i < kCache_count then
      let (src, state) := state.next_src
      let (dst, state) := state.next_dst
      let (sel, state) := state.draw
      let mix := (List.range kLanes).foldl (fun m l =>
        let offset := mixGet m l src % kL1_cache_words
        mixSet m l dst (random_merge (mixGet m l dst) (ctx.l1_cache offset) sel)) mix
      (mix, state)
    else (mix, state)
  if i < kMath_count then
    let (src_rnd0, state) := state.draw
    let src_rnd := src_rnd0 % (kRegs * (kRegs - 1))
    let src1 := src_rnd % kRegs
    let src2 := src_rnd / kRegs
    let src2 := if src1 ≤ src2 then src2 + 1 else src2
    let (sel1, state) := state.draw
    let (dst, state) := state.next_dst
    let (sel2, state) := state.draw
    let mix := (List.range kLanes).foldl (fun m l =>
      let data := random_math (mixGet m l src1) (mixGet m l src2) sel1
      mixSet m l dst (random_merge (mixGet m l dst) data sel2)) mix
    (mix, state)
  else (mix, state)

/-- `progpow::round` (`static void round(context, r, mix, state)` — the
`mix_rng_state` parameter is passed BY VALUE): DAG item selection and
load via `lazy_lookup_1024`, the cache/math phases, and the final DAG
access pattern.  Returns the updated mix together with the final state of
the local `mix_rng_state` copy, which the caller discards. -/
def round (ctx : epoch_context) (r : Nat) (mix : mix_t) (state : mix_rng_state) :
    mix_t × mix_rng_state :=
  let num_items := ctx.full_dataset_num_items / 2
  let item_index := mixGet mix (r % kLanes) 0 % num_items
  let idx0 := M32 (2 * item_index)
  let item := ctx.lookup1024 idx0 ++ ctx.lookup1024 (M32 (idx0 + 1))
  let (mix, state) :=
    (List.range (max kCache_count kMath_count)).foldl (roundPhaseStep ctx) (mix, state)
  let dagPick := fun (p : (List Nat × List Nat) × mix_rng_state) (i : Nat) =>
    let (dst, state) := if i = 0 then (0, p.2) else p.2.next_dst
    let (sel, state) := state.draw
    ((p.1.1 ++ [dst], p.1.2 ++ [sel]), state)
  let ((dsts, sels), state) :=
    (List.range kWords_per_lane).foldl dagPick (([], []), state)
  let mix := (List.range kLanes).foldl (fun m l =>
    let offset := ((l ^^^ r) % kLanes) * kWords_per_lane
    (List.range kWords_per_lane).foldl (fun m i =>
      let word := item.getD (offset + i) 0
      mixSet m l (dsts.getD i 0)
        (random_merge (mixGet m l (dsts.getD i 0)) word (sels.getD i 0))) m) mix
  (mix, state)

/-- The per-lane and cross-lane `fnv1a` reductions closing
`progpow::hash_mix` (steps after the `kDag_count` rounds). -/
def mixReduce (mix : mix_t) : hash256 :=
  let lane_hash := (List.range kLanes).map fun l =>
    (List.range kRegs).foldl (fun h i => fnv1a h (mixGet mix l i)) kFNV_OFFSET_BASIS
  (List.range kLanes).foldl
    (fun mh l => mh.set (l % 8) (fnv1a (mh.getD (l % 8) 0) (lane_hash.getD l 0)))
    (List.replicate 8 kFNV_OFFSET_BASIS)

/-- `progpow::hash_mix`: initialize the mix from the seed, build ONE
`mix_rng_state` from the period and run the 64 rounds, each receiving that
same state by value (the copy's advancement never returns to the caller);
then reduce. -/
def hash_mix (ctx : epoch_context) (period : Nat) (seed : Nat) : hash256 :=
  let state := mix_rng_state.init period
  let mix := (List.range kDag_count).foldl
    (fun m i => (round ctx i m state).1) (init_mix seed)
  mixReduce mix

/-- The variant of `hash_mix` the claim describes: every round is entered
with the dst/src cursors reset, but the KISS99 stream is threaded across
rounds — round `r+1` continues the stream where round `r` left off instead
of restarting from the program-seed-derived state. -/
def hash_mix_claim_threaded (ctx : epoch_context) (period : Nat) (seed : Nat) : hash256 :=
  let state0 := mix_rng_state.init period
  let fin := (List.range kDag_count).foldl
    (fun (p : mix_t × kiss99) i =>
      let entry : mix_rng_state := ⟨p.2, 0, 0, state0.dst_seq, state0.src_seq⟩
      let (m, ex) := round ctx i p.1 entry
      (m, ex.rng))
    (init_mix seed, state0.rng)
  mixReduce fin.1

/-- The restart semantics actually implemented: each of the 64 rounds is
entered with a freshly re-derived copy of the program-seed state (cursors
zero, KISS99 reseeded), so all rounds consume identical rng sequences. -/
def hash_mix_restart (ctx : epoch_context) (period : Nat) (seed : Nat) : hash256 :=
  let mix := (List.range kDag_count).foldl
    (fun m i => (round ctx i m (mix_rng_state.init period)).1) (init_mix seed)
  mixReduce mix

/-- `progpow::hash_seed`: zero Keccak-f[800] state, header hash in words
0..7, little-endian nonce in words 8..9, `state[10] = 0x00000001`,
`state[18] = 0x80008081`, permute, return words 0..7. -/
def hash_seed (header_hash : hash256) (nonce : Nat) : hash256 :=
  let g := fun i => header_hash.getD i 0
  let st := [g 0, g 1, g 2, g 3, g 4, g 5, g 6, g 7,
             M32 nonce, M32 (nonce >>> 32), 0x00000001,
             0, 0, 0, 0, 0, 0, 0, 0x80008081, 0, 0, 0, 0, 0, 0]
  (keccakf800 st).take 8

/-- `progpow::hash_final` exactly as the source defines it: zero state,
`input_hash` into words 0..7, `state[17] = 0x00000001`,
`state[24] = 0x80008081`, permute, return words 0..7.  The `seed_64` and
`mix_hash` parameters appear in the signature but are never read — no
`memcpy(&state[8], mix_hash.bytes, …)` is performed, so words 8..15 stay
zero. -/
def hash_final (input_hash : hash256) (seed_64 : Nat) (mix_hash : hash256) : hash256 :=
  let g := fun i => input_hash.getD i 0
  let st := [g 0, g 1, g 2, g 3, g 4, g 5, g 6, g 7,
             0, 0, 0, 0, 0, 0, 0, 0, 0, 0x00000001,
             0, 0, 0, 0, 0, 0, 0x80008081]
  (keccakf800 st).take 8

/-- `ethash::result`: the `(final_hash, mix_hash)` pair. -/
structure pow_result where
  final_hash : hash256
  mix_hash : hash256
deriving DecidableEq, Repr

/-- `progpow::hash`: seed from header and nonce, 64-bit seed from the
first seed words, mix, final. -/
def hash (ctx : epoch_context) (period : Nat) (header_hash : hash256)
    (nonce : Nat) : pow_result :=
  let seed_hash := hash_seed header_hash nonce
  let seed_64 := w64 (seed_hash.getD 0 0) (seed_hash.getD 1 0)
  let mix_hash := hash_mix ctx period seed_64
  let final_hash := hash_final seed_hash seed_64 mix_hash
  ⟨final_hash, mix_hash⟩

/-- `ethash::VerificationResult`. -/
inductive VerificationResult where
  | kOk
  | kInvalidNonce
  | kInvalidMixHash
deriving DecidableEq, Repr

/-- `progpow::verify_full` (context overload): compute the pair, reject by
`is_less_or_equal` against the boundary first, then by mix comparison. -/
def verify_full (ctx : epoch_context) (period : Nat) (header_hash : hash256)
    (mix_hash : hash256) (nonce : Nat) (boundary : hash256) : VerificationResult :=
  let result := hash ctx period header_hash nonce
  if !(is_less_or_equal result.final_hash boundary) then .kInvalidNonce
  else if !(is_equal result.mix_hash mix_hash) then .kInvalidMixHash
  else .kOk

/-- The ProgPoW period computed by the block-number overload of
`progpow::verify_full`: `block_number / kPeriodLength` (the `uint64`
quotient, subsequently passed as the period argument). -/
def period_from_block (block_number : Nat) : Nat := block_number / kPeriodLength

end progpow

/-- A minimal concrete epoch context for counterexamples and witnesses:
two dataset items, all-zero L1 cache and all-zero 1024-bit items. -/
def ctxTrivial : ethash.epoch_context :=
  { epoch_number := 0, light_cache_num_items := 0, light_cache := [],
    full_dataset_num_items := 2, l1_cache := fun _ => 0,
    lookup1024 := fun _ => List.replicate 32 0 }
section ByteLemmas

open ethash

/-- Every entry produced by `leBytes` is a byte. -/
theorem leBytes_lt (n : Nat) : ∀ (v : Nat), ∀ b ∈ leBytes n v, b < 256 := by
  induction n with
  | zero => intro v b hb; simp [leBytes] at hb
  | succ n ih =>
    intro v b hb
    simp only [leBytes, List.mem_cons] at hb
    rcases hb with h | h
    · subst h; exact Nat.mod_lt _ (by omega)
    · exact ih _ b h

/-- `leBytes` produces exactly `n` bytes. -/
theorem leBytes_length (n : Nat) : ∀ (v : Nat), (leBytes n v).length = n := by
  induction n with
  | zero => intro v; simp [leBytes]
  | succ n ih => intro v; simp [leBytes, ih]

/-- `leBytes` inverts `ofLEBytes` on byte lists of the right length. -/
theorem leBytes_ofLEBytes (n : Nat) :
    ∀ (l : List Nat), l.length = n → (∀ b ∈ l, b < 256) →
      leBytes n (ofLEBytes l) = l := by
  induction n with
  | zero =>
    intro l hl _
    rw [List.length_eq_zero] at hl
    subst hl; rfl
  | succ n ih =>
    intro l hl hb
    match l with
    | b :: t =>
      simp only [List.length_cons, Nat.succ.injEq] at hl
      have hblt : b < 256 := hb b (by simp)
      simp only [ofLEBytes, leBytes]
      have h1 : (b + 256 * ofLEBytes t) % 256 = b := by
        rw [Nat.add_mul_mod_self_left, Nat.mod_eq_of_lt hblt]
      have h2 : (b + 256 * ofLEBytes t) / 256 = ofLEBytes t := by
        rw [Nat.add_mul_div_left _ _ (by omega), Nat.div_eq_of_lt hblt, Nat.zero_add]
      rw [h1, h2, ih t hl (fun x hx => hb x (by simp [hx]))]

end ByteLemmas

/-- Claim C8: for difficulty ≥ 1, `get_boundary_from_diff` returns
`floor((2^256-1)/difficulty)` serialized as a big-endian 256-bit value;
in particular all-0xFF bytes for difficulty 1 and `0x7FFF…FF` for 2. -/
theorem claim_C8 (difficulty : Nat) (h : 1 ≤ difficulty) :
    ethash.get_boundary_from_diff difficulty =
      ethash.beBytes256 (ethash.boundary_dividend / difficulty) ∧
    ethash.get_boundary_from_diff 1 = List.replicate 32 255 ∧
    ethash.get_boundary_from_diff 2 = 127 :: List.replicate 31 255 := by
  refine ⟨?_, by decide, by decide⟩
  rcases Nat.lt_or_ge difficulty 2 with h2 | h2
  · have h1 : difficulty = 1 := by omega
    subst h1
    decide
  · have hgt : difficulty > 1 := h2
    simp only [ethash.get_boundary_from_diff, if_pos hgt, ethash.bswap256,
      ethash.beBytes256]
    apply leBytes_ofLEBytes
    · rw [List.length_reverse, leBytes_length]
    · intro b hb
      exact leBytes_lt _ _ b (List.mem_reverse.mp hb)

/-- Claim C8 witness: the theorem instantiated at difficulty 2. -/
theorem claim_C8_witness :
    1 ≤ 2 ∧
    (ethash.get_boundary_from_diff 2 =
      ethash.beBytes256 (ethash.boundary_dividend / 2) ∧
    ethash.get_boundary_from_diff 1 = List.replicate 32 255 ∧
    ethash.get_boundary_from_diff 2 = 127 :: List.replicate 31 255) :=
  ⟨by decide, claim_C8 2 (by decide)⟩

/-- Claim C10: `get_boundary_from_diff` never divides by zero — the
`difficulty > 1` guard routes difficulty 0 (like difficulty 1) to the
branch that just copies the all-0xFF dividend bytes. -/
theorem claim_C10 :
    ethash.get_boundary_from_diff 0 = List.replicate 32 255 ∧
    ethash.get_boundary_from_diff 0 = ethash.get_boundary_from_diff 1 := by
  decide
/-- Claim C4 counterexample: the period-length constant is 1, not 3, and
the program seed for block 3 is 3, not `3 / 3 = 1`. -/
theorem claim_C4_counterexample :
    progpow.kPeriodLength ≠ 3 ∧
    progpow.period_from_block 3 = 3 ∧ progpow.period_from_block 3 ≠ 3 / 3 := by
  decide

/-- Claim C4 (amended): `kPeriodLength` equals 1 and the program seed used
when verifying by block number is `block / kPeriodLength = block`, so
every block gets its own program. -/
theorem claim_C4 :
    progpow.kPeriodLength = 1 ∧
    ∀ block_number : Nat, progpow.period_from_block block_number = block_number :=
  ⟨rfl, fun b => Nat.div_one b⟩

/-- Claim C2: `progpow::hash_final` never reads its `mix_hash` argument —
state words 8..15 stay zero instead of receiving the mix — so the
returned final hash is independent of the provided mix. -/
theorem claim_C2 :
    ∀ (input_hash : ethash.hash256) (seed_64 : Nat) (m₁ m₂ : ethash.hash256),
      progpow.hash_final input_hash seed_64 m₁ = progpow.hash_final input_hash seed_64 m₂ :=
  fun _ _ _ _ => rfl

set_option maxRecDepth 100000 in
/-- Claim C3 counterexample: `hash_mix` invokes every round with the same
by-value state `mix_rng_state.init period` (visible in its definition and
proved as `claim_C3`), so round 1 is entered with the KISS99 stream in its
program-seed-derived position; but the stream position where round 0
leaves off differs from it — the stream does NOT continue across rounds. -/
theorem claim_C3_counterexample :
    ((progpow.round ctxTrivial 0 (progpow.init_mix 0) (progpow.mix_rng_state.init 0)).2).rng ≠
      (progpow.mix_rng_state.init 0).rng := by
  decide

/-- Claim C3 (amended): each of the 64 rounds is entered with a copy of
the program-seed-derived `mix_rng_state` whose cursors are reset AND whose
KISS99 stream is reset: `hash_mix` equals the variant that re-derives the
state from the period for every round, and the per-round entry state has
both cursors zero.  The KISS99 stream does not advance across rounds. -/
theorem claim_C3 (ctx : ethash.epoch_context) (period seed : Nat) :
    progpow.hash_mix ctx period seed = progpow.hash_mix_restart ctx period seed ∧
    (progpow.mix_rng_state.init period).dst_counter = 0 ∧
    (progpow.mix_rng_state.init period).src_counter = 0 :=
  ⟨rfl, rfl, rfl⟩
section PermLemmas

/-- Moving the element at position `m` to the front while writing `a` into
its slot permutes a cons: `t[m] :: t.set m a ~ a :: t`. -/
theorem getD_cons_set_perm :
    ∀ (t : List Nat) (m a : Nat), m < t.length →
      List.Perm (t.getD m 0 :: t.set m a) (a :: t) := by
  intro t
  induction t with
  | nil => intro m a hm; simp at hm
  | cons b t ih =>
    intro m a hm
    match m with
    | 0 =>
      simp only [List.getD_cons_zero, List.set_cons_zero]
      exact List.Perm.swap a b t
    | m + 1 =>
      simp only [List.getD_cons_succ, List.set_cons_succ]
      have hm' : m < t.length := by simpa using hm
      exact ((List.Perm.swap b (t.getD m 0) (t.set m a)).trans
        (((ih m a hm').cons b).trans (List.Perm.swap a b t)))

/-- `listSwap` with ordered indices is a permutation. -/
theorem listSwap_perm_lt :
    ∀ (l : List Nat) (i j : Nat), i < j → j < l.length →
      List.Perm (progpow.listSwap l i j) l := by
  intro l
  induction l with
  | nil => intro i j _ hj; simp at hj
  | cons a t ih =>
    intro i j hij hj
    match i, j with
    | 0, m + 1 =>
      have hm : m < t.length := by simpa using hj
      simp only [progpow.listSwap, List.getD_cons_succ, List.getD_cons_zero,
        List.set_cons_zero, List.set_cons_succ]
      exact getD_cons_set_perm t m a hm
    | p + 1, q + 1 =>
      have hq : q < t.length := by simpa using hj
      simp only [progpow.listSwap, List.getD_cons_succ, List.set_cons_succ]
      exact (ih p q (by omega) hq).cons a

/-- Writing back the element already at a position is the identity. -/
theorem set_getD_self :
    ∀ (l : List Nat) (i : Nat), i < l.length → l.set i (l.getD i 0) = l := by
  intro l
  induction l with
  | nil => intro i hi; simp at hi
  | cons a t ih =>
    intro i hi
    match i with
    | 0 => simp
    | m + 1 =>
      simp only [List.getD_cons_succ, List.set_cons_succ, List.cons.injEq, true_and]
      exact ih m (by simpa using hi)

/-- `std::swap` of two in-range positions permutes the array. -/
theorem listSwap_perm (l : List Nat) (i j : Nat) (hi : i < l.length)
    (hj : j < l.length) : List.Perm (progpow.listSwap l i j) l := by
  rcases Nat.lt_trichotomy i j with h | h | h
  · exact listSwap_perm_lt l i j h hj
  · subst h
    have h1 : progpow.listSwap l i i = l := by
      simp only [progpow.listSwap]
      rw [List.set_set]
      exact set_getD_self l i hi
    rw [h1]
  · have hcomm : progpow.listSwap l i j = progpow.listSwap l j i := by
      simp only [progpow.listSwap]
      exact List.set_comm _ _ _ (by omega)
    rw [hcomm]
    exact listSwap_perm_lt l j i h hi

/-- The interleaved Fisher-Yates loop keeps both sequences permutations of
`{0, …, 31}`. -/
theorem fyLoop_perm :
    ∀ (i : Nat), i ≤ 32 → ∀ (rng : crypto.kiss99) (d s : List Nat),
      List.Perm d (List.range 32) → List.Perm s (List.range 32) →
      List.Perm (progpow.fyLoop i rng d s).2.1 (List.range 32) ∧
      List.Perm (progpow.fyLoop i rng d s).2.2 (List.range 32) := by
  intro i
  induction i using Nat.strong_induction_on with
  | _ i ih =>
    match i with
    | 0 => intro _ rng d s hd hs; exact ⟨hd, hs⟩
    | 1 => intro _ rng d s hd hs; exact ⟨hd, hs⟩
    | i + 2 =>
      intro hle rng d s hd hs
      have hdlen : d.length = 32 := by
        rw [hd.length_eq, List.length_range]
      have hslen : s.length = 32 := by
        rw [hs.length_eq, List.length_range]
      simp only [progpow.fyLoop]
      apply ih (i + 1) (by omega) (by omega)
      · exact (listSwap_perm d (i + 1) _ (by omega)
          (by rw [hdlen]; exact Nat.lt_of_lt_of_le (Nat.mod_lt _ (by omega)) (by omega))).trans hd
      · exact (listSwap_perm s (i + 1) _ (by omega)
          (by rw [hslen]; exact Nat.lt_of_lt_of_le (Nat.mod_lt _ (by omega)) (by omega))).trans hs

end PermLemmas

/-- Claim C7: for every 64-bit program seed, the `dst_seq` and `src_seq`
arrays produced by the `mix_rng_state` constructor's interleaved
Fisher-Yates shuffles are permutations of `{0, …, 31}`. -/
theorem claim_C7 (seed : Nat) :
    List.Perm (progpow.mix_rng_state.init seed).dst_seq (List.range 32) ∧
    List.Perm (progpow.mix_rng_state.init seed).src_seq (List.range 32) := by
  simp only [progpow.mix_rng_state.init, progpow.kRegs]
  constructor
  · exact (fyLoop_perm 32 (by omega) (progpow.mix_rng_state.initKiss seed) _ _
      (List.Perm.refl _) (List.Perm.refl _)).1
  · exact (fyLoop_perm 32 (by omega) (progpow.mix_rng_state.initKiss seed) _ _
      (List.Perm.refl _) (List.Perm.refl _)).2
section CompareLemmas

/-- A byte-swapped 64-bit word is below 2^64. -/
theorem bswap64_lt (v : Nat) : ethash.bswap64 v < 18446744073709551616 := by
  simp only [ethash.bswap64]
  omega

/-- The big-endian value of a bounded word list is below `B ^ length`. -/
theorem beValAux_lt :
    ∀ (l : List Nat), (∀ x ∈ l, x < 18446744073709551616) →
      ethash.beValAux l < 18446744073709551616 ^ l.length := by
  intro l
  induction l with
  | nil => intro _; simp [ethash.beValAux]
  | cons x t ih =>
    intro hb
    have hx : x < 18446744073709551616 := hb x (by simp)
    have ht : ethash.beValAux t < 18446744073709551616 ^ t.length :=
      ih (fun y hy => hb y (by simp [hy]))
    simp only [ethash.beValAux, List.length_cons]
    have h1 : x * 18446744073709551616 ^ t.length ≤
        18446744073709551615 * 18446744073709551616 ^ t.length :=
      Nat.mul_le_mul_right _ (by omega)
    have h2 : (18446744073709551615 : Nat) * 18446744073709551616 ^ t.length +
        18446744073709551616 ^ t.length = 18446744073709551616 ^ (t.length + 1) := by
      rw [Nat.pow_succ]
      ring
    omega

/-- The early-exit word comparison loop agrees with the numeric order of
the big-endian values, for equal-length bounded word lists. -/
theorem lexLe_iff :
    ∀ (xs ys : List Nat), xs.length = ys.length →
      (∀ x ∈ xs, x < 18446744073709551616) →
      (∀ y ∈ ys, y < 18446744073709551616) →
      (ethash.lexLe xs ys = true ↔ ethash.beValAux xs ≤ ethash.beValAux ys) := by
  intro xs
  induction xs with
  | nil =>
    intro ys hlen _ _
    have hys : ys = [] := by
      cases ys with
      | nil => rfl
      | cons y t => simp at hlen
    subst hys
    simp [ethash.lexLe, ethash.beValAux]
  | cons x t ih =>
    intro ys hlen hxb hyb
    cases ys with
    | nil => simp at hlen
    | cons y u =>
      have hlen2 : t.length = u.length := by simpa using hlen
      have hx : x < 18446744073709551616 := hxb x (by simp)
      have hy : y < 18446744073709551616 := hyb y (by simp)
      have hvt : ethash.beValAux t < 18446744073709551616 ^ t.length :=
        beValAux_lt t (fun z hz => hxb z (by simp [hz]))
      have hvu : ethash.beValAux u < 18446744073709551616 ^ u.length :=
        beValAux_lt u (fun z hz => hyb z (by simp [hz]))
      rw [hlen2] at hvt
      simp only [ethash.lexLe, ethash.beValAux, hlen2]
      rcases Nat.lt_trichotomy x y with hxy | hxy | hxy
      · rw [if_neg (by omega), if_pos hxy]
        refine iff_of_true rfl ?_
        have hmul : (x + 1) * 18446744073709551616 ^ u.length ≤
            y * 18446744073709551616 ^ u.length :=
          Nat.mul_le_mul_right _ (by omega)
        rw [Nat.add_mul] at hmul
        omega
      · subst hxy
        rw [if_neg (by omega), if_neg (by omega)]
        rw [ih u hlen2 (fun z hz => hxb z (by simp [hz])) (fun z hz => hyb z (by simp [hz]))]
        omega
      · rw [if_pos hxy]
        refine iff_of_false (by simp) (Nat.not_le.mpr ?_)
        have hmul : (y + 1) * 18446744073709551616 ^ u.length ≤
            x * 18446744073709551616 ^ u.length :=
          Nat.mul_le_mul_right _ (by omega)
        rw [Nat.add_mul] at hmul
        omega

/-- `beWords` always yields four words below 2^64. -/
theorem beWords_bound (h : ethash.hash256) :
    ∀ x ∈ ethash.beWords h, x < 18446744073709551616 := by
  intro x hx
  simp only [ethash.beWords, List.mem_map] at hx
  obtain ⟨y, _, rfl⟩ := hx
  exact bswap64_lt y

/-- `ethash::is_less_or_equal` decides exactly the big-endian 256-bit
unsigned order. -/
theorem is_less_or_equal_iff (a b : ethash.hash256) :
    ethash.is_less_or_equal a b = true ↔ ethash.beValue256 a ≤ ethash.beValue256 b := by
  have hlen : (ethash.beWords a).length = (ethash.beWords b).length := by
    simp [ethash.beWords, ethash.word64sOf]
  exact lexLe_iff (ethash.beWords a) (ethash.beWords b) hlen
    (beWords_bound a) (beWords_bound b)

/-- `ethash::is_equal` decides digest equality. -/
theorem is_equal_iff (a b : ethash.hash256) :
    ethash.is_equal a b = true ↔ a = b := by
  simp [ethash.is_equal]

end CompareLemmas

/-- Claim C1: `progpow::verify_full` first computes the `(final, mix)`
pair, returns `kInvalidNonce` exactly when the final hash exceeds the
boundary in the big-endian 256-bit unsigned order (so a final hash equal
to the boundary is never rejected as an invalid nonce), otherwise
`kInvalidMixHash` when the computed mix differs from the provided one,
otherwise `kOk`. -/
theorem claim_C1 (ctx : ethash.epoch_context) (period : Nat)
    (header_hash mix_hash : ethash.hash256) (nonce : Nat)
    (boundary : ethash.hash256) :
    progpow.verify_full ctx period header_hash mix_hash nonce boundary =
      (if ethash.beValue256 boundary <
          ethash.beValue256 (progpow.hash ctx period header_hash nonce).final_hash then
        progpow.VerificationResult.kInvalidNonce
      else if (progpow.hash ctx period header_hash nonce).mix_hash ≠ mix_hash then
        progpow.VerificationResult.kInvalidMixHash
      else progpow.VerificationResult.kOk) := by
  simp only [progpow.verify_full]
  rcases hle : ethash.is_less_or_equal
      (progpow.hash ctx period header_hash nonce).final_hash boundary with _ | _
  · have hnle : ¬ ethash.beValue256 (progpow.hash ctx period header_hash nonce).final_hash ≤
        ethash.beValue256 boundary := by
      intro hc
      have h := (is_less_or_equal_iff _ _).mpr hc
      rw [hle] at h
      exact Bool.false_ne_true h
    rw [if_pos (Nat.not_le.mp hnle)]
    simp [hle]
  · have hnum : ¬ (ethash.beValue256 boundary <
        ethash.beValue256 (progpow.hash ctx period header_hash nonce).final_hash) :=
      Nat.not_lt.mpr ((is_less_or_equal_iff _ _).mp hle)
    rw [if_neg hnum]
    rcases heq : ethash.is_equal
        (progpow.hash ctx period header_hash nonce).mix_hash mix_hash with _ | _
    · have hne : (progpow.hash ctx period header_hash nonce).mix_hash ≠ mix_hash := by
        intro hc
        have h := (is_equal_iff _ _).mpr hc
        rw [heq] at h
        exact Bool.false_ne_true h
      rw [if_pos hne]
      simp [hle, heq]
    · have heq2 := (is_equal_iff _ _).mp heq
      simp [hle, heq, heq2]
section FoldLemmas

/-- A fold that steps two independent components in lock-step equals the
pair of the two independent folds. -/
theorem foldl_pair_eq {α : Type} (f g : α → Nat → α) :
    ∀ (l : List Nat) (a b : α),
      l.foldl (fun (p : α × α) i => (f p.1 i, g p.2 i)) (a, b) =
        (l.foldl f a, l.foldl g b) := by
  intro l
  induction l with
  | nil => intro a b; rfl
  | cons x t ih => intro a b; simp only [List.foldl_cons]; exact ih (f a x) (g b x)

/-- A fold that steps four independent components in lock-step equals the
tuple of the four independent folds. -/
theorem foldl_quad_eq {α : Type} (f g h k : α → Nat → α) :
    ∀ (l : List Nat) (a b c d : α),
      l.foldl (fun (p : α × α × α × α) i =>
        (f p.1 i, g p.2.1 i, h p.2.2.1 i, k p.2.2.2 i)) (a, b, c, d) =
        (l.foldl f a, l.foldl g b, l.foldl h c, l.foldl k d) := by
  intro l
  induction l with
  | nil => intro a b c d; rfl
  | cons x t ih =>
    intro a b c d
    simp only [List.foldl_cons]
    exact ih (f a x) (g b x) (h c x) (k d x)

end FoldLemmas

/-- Claim C9: for in-range indexes the fused dataset-item computations are
bit-identical to the sequential single-sub-item algorithm:
`calculate_dataset_item_1024 ctx j` is the concatenation of the
independently computed sub-items `2j` and `2j+1`, and
`calculate_dataset_item_2048 ctx j` that of sub-items `4j .. 4j+3`. -/
theorem claim_C9 (ctx : ethash.epoch_context) (j : Nat)
    (h : 4 * j + 3 < 4294967296) :
    ethash.calculate_dataset_item_1024 ctx j =
      ethash.dataset_sub_item_seq ctx (2 * j) ++
        ethash.dataset_sub_item_seq ctx (2 * j + 1) ∧
    ethash.calculate_dataset_item_2048 ctx j =
      ethash.dataset_sub_item_seq ctx (4 * j) ++
        ethash.dataset_sub_item_seq ctx (4 * j + 1) ++
        ethash.dataset_sub_item_seq ctx (4 * j + 2) ++
        ethash.dataset_sub_item_seq ctx (4 * j + 3) := by
  have m2 : crypto.M32 (2 * j) = 2 * j := Nat.mod_eq_of_lt (by omega)
  have m4 : crypto.M32 (4 * j) = 4 * j := Nat.mod_eq_of_lt (by omega)
  constructor
  · simp only [ethash.calculate_dataset_item_1024, m2]
    have m21 : crypto.M32 (2 * j + 1) = 2 * j + 1 := Nat.mod_eq_of_lt (by omega)
    rw [m21]
    rw [foldl_pair_eq (ethash.item_state_update ctx (2 * j))
      (ethash.item_state_update ctx (2 * j + 1))]
    simp [ethash.dataset_sub_item_seq]
  · simp only [ethash.calculate_dataset_item_2048, m4]
    have m41 : crypto.M32 (4 * j + 1) = 4 * j + 1 := Nat.mod_eq_of_lt (by omega)
    have m42 : crypto.M32 (4 * j + 2) = 4 * j + 2 := Nat.mod_eq_of_lt (by omega)
    have m43 : crypto.M32 (4 * j + 3) = 4 * j + 3 := Nat.mod_eq_of_lt (by omega)
    rw [m41, m42, m43]
    rw [foldl_quad_eq (ethash.item_state_update ctx (4 * j))
      (ethash.item_state_update ctx (4 * j + 1))
      (ethash.item_state_update ctx (4 * j + 2))
      (ethash.item_state_update ctx (4 * j + 3))]
    simp [ethash.dataset_sub_item_seq, List.append_assoc]

/-- Claim C9 witness: the theorem instantiated at the trivial context and
index 0. -/
theorem claim_C9_witness :
    4 * 0 + 3 < 4294967296 ∧
    (ethash.calculate_dataset_item_1024 ctxTrivial 0 =
      ethash.dataset_sub_item_seq ctxTrivial (2 * 0) ++
        ethash.dataset_sub_item_seq ctxTrivial (2 * 0 + 1) ∧
    ethash.calculate_dataset_item_2048 ctxTrivial 0 =
      ethash.dataset_sub_item_seq ctxTrivial (4 * 0) ++
        ethash.dataset_sub_item_seq ctxTrivial (4 * 0 + 1) ++
        ethash.dataset_sub_item_seq ctxTrivial (4 * 0 + 2) ++
        ethash.dataset_sub_item_seq ctxTrivial (4 * 0 + 3)) :=
  ⟨by decide, claim_C9 ctxTrivial 0 (by decide)⟩
section PrimeLemmas

/-- If the trial loop completed (returned `true`) with enough fuel, no
divisor at an even offset from the start, with square below the number,
divides it. -/
theorem trialLoop_true_no_div :
    ∀ (k fuel n d0 : Nat), k < fuel → ethash.trialLoop n fuel d0 = true →
      (d0 + 2 * k) * (d0 + 2 * k) ≤ n → n % (d0 + 2 * k) ≠ 0 := by
  intro k
  induction k with
  | zero =>
    intro fuel n d0 hk h hdd
    simp only [Nat.mul_zero, Nat.add_zero] at hdd ⊢
    cases fuel with
    | zero => omega
    | succ f =>
      simp only [ethash.trialLoop] at h
      rw [if_pos hdd] at h
      intro hmod
      rw [if_pos hmod] at h
      exact Bool.false_ne_true h
  | succ k ih =>
    intro fuel n d0 hk h hdd
    cases fuel with
    | zero => omega
    | succ f =>
      have hd0 : d0 * d0 ≤ n := by
        have h1 : d0 ≤ d0 + 2 * (k + 1) := by omega
        calc d0 * d0 ≤ (d0 + 2 * (k + 1)) * (d0 + 2 * (k + 1)) :=
              Nat.mul_le_mul h1 h1
          _ ≤ n := hdd
      simp only [ethash.trialLoop] at h
      rw [if_pos hd0] at h
      by_cases hmod : n % d0 = 0
      · rw [if_pos hmod] at h
        exact absurd h Bool.false_ne_true
      · rw [if_neg hmod] at h
        have heq : d0 + 2 + 2 * k = d0 + 2 * (k + 1) := by omega
        have h2 := ih f n (d0 + 2) (by omega) h (by rw [heq]; exact hdd)
        rw [heq] at h2
        exact h2

/-- If the trial loop found a divisor (returned `false`), an even-offset
divisor with square below the number exists. -/
theorem trialLoop_false_div :
    ∀ (fuel n d0 : Nat), ethash.trialLoop n fuel d0 = false →
      ∃ d, d0 ≤ d ∧ (d - d0) % 2 = 0 ∧ d * d ≤ n ∧ n % d = 0 := by
  intro fuel
  induction fuel with
  | zero =>
    intro n d0 h
    simp only [ethash.trialLoop] at h
    exact Bool.noConfusion h
  | succ fuel ih =>
    intro n d0 h
    simp only [ethash.trialLoop] at h
    by_cases hdd : d0 * d0 ≤ n
    · rw [if_pos hdd] at h
      by_cases hmod : n % d0 = 0
      · exact ⟨d0, Nat.le_refl d0, by omega, hdd, hmod⟩
      · rw [if_neg hmod] at h
        obtain ⟨d, hd1, hd2, hd3, hd4⟩ := ih n (d0 + 2) h
        exact ⟨d, by omega, by omega, hd3, hd4⟩
    · rw [if_neg hdd] at h
      exact Bool.noConfusion h

/-- A number accepted by `is_unsigned_odd_prime` is odd. -/
theorem isUOP_odd (n : Nat) (h : ethash.is_unsigned_odd_prime n = true) :
    n % 2 = 1 := by
  unfold ethash.is_unsigned_odd_prime at h
  rw [Nat.and_one_is_mod] at h
  by_cases h2 : n % 2 = 0
  · rw [if_pos h2] at h; exact absurd h Bool.false_ne_true
  · omega

/-- A number at least 3 accepted by `is_unsigned_odd_prime` is prime:
odd trial division up to the square root is complete for odd numbers. -/
theorem isUOP_prime (n : Nat) (h3 : 3 ≤ n)
    (h : ethash.is_unsigned_odd_prime n = true) : Nat.Prime n := by
  have hodd : n % 2 = 1 := isUOP_odd n h
  have htl : ethash.trialLoop n n 3 = true := by
    unfold ethash.is_unsigned_odd_prime at h
    rw [Nat.and_one_is_mod, if_neg (by omega)] at h
    exact h
  rw [Nat.prime_def_le_sqrt]
  refine ⟨by omega, ?_⟩
  intro m hm2 hmsq hdvd
  have hmm : m * m ≤ n := Nat.le_sqrt.mp hmsq
  have hmself : m ≤ m * m := Nat.le_mul_of_pos_left m (by omega)
  obtain ⟨c, hc⟩ := hdvd
  rcases Nat.even_or_odd m with hme | hmo
  · obtain ⟨t, ht⟩ := hme
    have h2c : n = 2 * (t * c) := by rw [hc, ht]; ring
    omega
  · have hmodd : m % 2 = 1 := Nat.odd_iff.mp hmo
    have hm3 : 3 ≤ m := by omega
    have hkeq : 3 + 2 * ((m - 3) / 2) = m := by omega
    have hnodvd := trialLoop_true_no_div ((m - 3) / 2) n n 3 (by omega) htl
      (by rw [hkeq]; exact hmm)
    rw [hkeq] at hnodvd
    apply hnodvd
    rw [hc]
    exact Nat.mul_mod_right m c

/-- Conversely, an odd prime passes `is_unsigned_odd_prime`. -/
theorem isUOP_of_odd_prime (n : Nat) (hodd : n % 2 = 1) (hp : Nat.Prime n) :
    ethash.is_unsigned_odd_prime n = true := by
  unfold ethash.is_unsigned_odd_prime
  rw [Nat.and_one_is_mod, if_neg (by omega)]
  cases hf : ethash.trialLoop n n 3 with
  | true => rfl
  | false =>
    exfalso
    obtain ⟨d, hd3, _, hdd, hdmod⟩ := trialLoop_false_div n n 3 hf
    have hdvd : d ∣ n := Nat.dvd_of_mod_eq_zero hdmod
    have hd1 : d ≠ 1 := by omega
    have hdn : d ≠ n := by
      intro he
      subst he
      have h2d : 2 * d ≤ d * d := Nat.mul_le_mul_right d (by omega)
      omega
    rcases hp.eq_one_or_self_of_dvd d hdvd with hcase | hcase
    · exact hd1 hcase
    · exact hdn hcase

/-- The descending search never overshoots its start. -/
theorem aux_le : ∀ (fuel n : Nat), ethash.findLargestAux fuel n ≤ n := by
  intro fuel
  induction fuel with
  | zero => intro n; simp [ethash.findLargestAux]
  | succ fuel ih =>
    intro n
    simp only [ethash.findLargestAux]
    by_cases h : ethash.is_unsigned_odd_prime n = true
    · rw [if_pos h]
    · rw [if_neg h]
      exact le_trans (ih (n - 2)) (by omega)

/-- With fuel at least half the odd start, the descending search returns
a value passing `is_unsigned_odd_prime` (the chain bottoms out at 1,
where the test is vacuously true). -/
theorem aux_isUOP : ∀ (fuel n : Nat), n % 2 = 1 → n ≤ 2 * fuel + 1 →
    ethash.is_unsigned_odd_prime (ethash.findLargestAux fuel n) = true := by
  intro fuel
  induction fuel with
  | zero =>
    intro n hodd hle
    have h1 : n = 1 := by omega
    subst h1
    simp only [ethash.findLargestAux]
    decide
  | succ fuel ih =>
    intro n hodd hle
    simp only [ethash.findLargestAux]
    by_cases h : ethash.is_unsigned_odd_prime n = true
    · rw [if_pos h]; exact h
    · rw [if_neg h]
      have hn1 : n ≠ 1 := by
        intro he; subst he; exact h (by decide)
      exact ih (n - 2) (by omega) (by omega)

/-- The descending search from an odd start at least 3 stays at least 3
(3 itself passes the test). -/
theorem aux_ge3 : ∀ (fuel n : Nat), n % 2 = 1 → 3 ≤ n →
    3 ≤ ethash.findLargestAux fuel n := by
  intro fuel
  induction fuel with
  | zero => intro n _ h3; simpa [ethash.findLargestAux] using h3
  | succ fuel ih =>
    intro n hodd h3
    simp only [ethash.findLargestAux]
    by_cases h : ethash.is_unsigned_odd_prime n = true
    · rw [if_pos h]; exact h3
    · rw [if_neg h]
      have hn3 : n ≠ 3 := by
        intro he; subst he; exact h (by decide)
      exact ih (n - 2) (by omega) (by omega)

/-- Everything odd strictly between the search result and its start fails
`is_unsigned_odd_prime` — the search skipped it. -/
theorem aux_largest : ∀ (fuel n : Nat), n % 2 = 1 →
    ∀ m, ethash.findLargestAux fuel n < m → m ≤ n → m % 2 = 1 →
      ethash.is_unsigned_odd_prime m = false := by
  intro fuel
  induction fuel with
  | zero =>
    intro n _ m hlt hle _
    simp only [ethash.findLargestAux] at hlt
    exact absurd hlt (by omega)
  | succ fuel ih =>
    intro n hodd m hlt hle hmodd
    simp only [ethash.findLargestAux] at hlt
    by_cases h : ethash.is_unsigned_odd_prime n = true
    · rw [if_pos h] at hlt
      exact absurd hlt (by omega)
    · rw [if_neg h] at hlt
      have hn1 : n ≠ 1 := by
        intro he; subst he; exact h (by decide)
      by_cases hmn : m ≤ n - 2
      · exact ih (n - 2) (by omega) m hlt hmn hmodd
      · have hmn2 : m = n := by omega
        subst hmn2
        cases hh : ethash.is_unsigned_odd_prime m with
        | false => rfl
        | true => exact absurd hh h

/-- Full characterization of `find_largest_unsigned_prime` on even upper
bounds at least 4: the result is the largest odd prime not exceeding the
bound. -/
theorem find_largest_spec (ub : Nat) (hub : 4 ≤ ub) (heven : ub % 2 = 0) :
    ethash.find_largest_unsigned_prime ub % 2 = 1 ∧
    Nat.Prime (ethash.find_largest_unsigned_prime ub) ∧
    ethash.find_largest_unsigned_prime ub ≤ ub ∧
    ∀ m, ethash.find_largest_unsigned_prime ub < m → m ≤ ub → m % 2 = 1 →
      ¬ Nat.Prime m := by
  have hn : ethash.find_largest_unsigned_prime ub =
      ethash.findLargestAux (ub - 1) (ub - 1) := by
    unfold ethash.find_largest_unsigned_prime
    rw [if_neg (by omega), Nat.and_one_is_mod, if_neg (by omega)]
  have hodd1 : (ub - 1) % 2 = 1 := by omega
  have h31 : 3 ≤ ub - 1 := by omega
  have hUOP := aux_isUOP (ub - 1) (ub - 1) hodd1 (by omega)
  have hge3 := aux_ge3 (ub - 1) (ub - 1) hodd1 h31
  have haux_le := aux_le (ub - 1) (ub - 1)
  rw [hn]
  refine ⟨isUOP_odd _ hUOP, isUOP_prime _ hge3 hUOP, by omega, ?_⟩
  intro m hlt hmub hmodd hmprime
  by_cases hmn : m ≤ ub - 1
  · have hfalse := aux_largest (ub - 1) (ub - 1) hodd1 m hlt hmn hmodd
    have htrue := isUOP_of_odd_prime m hmodd hmprime
    rw [htrue] at hfalse
    exact Bool.noConfusion hfalse
  · omega

end PrimeLemmas

/-- Claim C6: for every epoch e ≤ 1024 both item counts are odd primes,
their byte sizes stay within the spec's epoch budgets (light cache:
16 MiB + e·128 KiB; dataset: 1 GiB + e·8 MiB), and each count is the
largest odd prime not exceeding its item upper bound (262144 + e·2048
resp. 8388608 + e·65536). -/
theorem claim_C6 (e : Nat) (he : e ≤ 1024) :
    (ethash.calculate_light_cache_num_items e % 2 = 1 ∧
     Nat.Prime (ethash.calculate_light_cache_num_items e) ∧
     ethash.calculate_light_cache_num_items e * 64 ≤ 16777216 + e * 131072 ∧
     ∀ m, ethash.calculate_light_cache_num_items e < m → m ≤ 262144 + e * 2048 →
       m % 2 = 1 → ¬ Nat.Prime m) ∧
    (ethash.calculate_full_dataset_num_items e % 2 = 1 ∧
     Nat.Prime (ethash.calculate_full_dataset_num_items e) ∧
     ethash.calculate_full_dataset_num_items e * 128 ≤ 1073741824 + e * 8388608 ∧
     ∀ m, ethash.calculate_full_dataset_num_items e < m → m ≤ 8388608 + e * 65536 →
       m % 2 = 1 → ¬ Nat.Prime m) := by
  have hL : ethash.calculate_light_cache_num_items e =
      ethash.find_largest_unsigned_prime (262144 + e * 2048) := by
    unfold ethash.calculate_light_cache_num_items ethash.light_cache_num_items_init
      ethash.light_cache_num_items_growth crypto.M32
    norm_num
    rw [Nat.mod_eq_of_lt (by omega)]
  have hF : ethash.calculate_full_dataset_num_items e =
      ethash.find_largest_unsigned_prime (8388608 + e * 65536) := by
    unfold ethash.calculate_full_dataset_num_items ethash.full_dataset_num_items_init
      ethash.full_dataset_num_items_growth crypto.M32
    norm_num
    rw [Nat.mod_eq_of_lt (by omega)]
  obtain ⟨hLo, hLp, hLle, hLmax⟩ :=
    find_largest_spec (262144 + e * 2048) (by omega) (by omega)
  obtain ⟨hFo, hFp, hFle, hFmax⟩ :=
    find_largest_spec (8388608 + e * 65536) (by omega) (by omega)
  rw [hL, hF]
  refine ⟨⟨hLo, hLp, ?_, hLmax⟩, ⟨hFo, hFp, ?_, hFmax⟩⟩
  · have := Nat.mul_le_mul_right 64 hLle
    omega
  · have := Nat.mul_le_mul_right 128 hFle
    omega

/-- Claim C6 witness: the theorem instantiated at epoch 0. -/
theorem claim_C6_witness :
    (0 : Nat) ≤ 1024 ∧
    ((ethash.calculate_light_cache_num_items 0 % 2 = 1 ∧
     Nat.Prime (ethash.calculate_light_cache_num_items 0) ∧
     ethash.calculate_light_cache_num_items 0 * 64 ≤ 16777216 + 0 * 131072 ∧
     ∀ m, ethash.calculate_light_cache_num_items 0 < m → m ≤ 262144 + 0 * 2048 →
       m % 2 = 1 → ¬ Nat.Prime m) ∧
    (ethash.calculate_full_dataset_num_items 0 % 2 = 1 ∧
     Nat.Prime (ethash.calculate_full_dataset_num_items 0) ∧
     ethash.calculate_full_dataset_num_items 0 * 128 ≤ 1073741824 + 0 * 8388608 ∧
     ∀ m, ethash.calculate_full_dataset_num_items 0 < m → m ≤ 8388608 + 0 * 65536 →
       m % 2 = 1 → ¬ Nat.Prime m)) :=
  ⟨by decide, claim_C6 0 (by decide)⟩
set_option maxRecDepth 10000 in
/-- Claim C5 counterexample: with the thread-local cache holding epoch
number 7 against the all-zero seed, looking up `seed(0)` (the all-zero
digest) returns the cached `some 7`, not `some 0` — the round trip does
NOT hold regardless of the cache contents. -/
theorem claim_C5_counterexample :
    (ethash.calculate_epoch_from_seed (some 7) ethash.zero256
      (ethash.calculate_seed_from_epoch 0)).1 = some 7 ∧
    (ethash.calculate_epoch_from_seed (some 7) ethash.zero256
      (ethash.calculate_seed_from_epoch 0)).1 ≠ some 0 := by
  constructor
  · decide
  · decide

section ScanLemmas

/-- The linear scan of `calculate_epoch_from_seed` finds the least epoch
whose seed matches; if no epoch before `e` collides with `seed(e)` the
scan started at `i ≤ e` returns `some e`. -/
theorem epochScanAux_finds :
    ∀ (fuel i e : Nat) (q : ethash.hash256), i + fuel = 30000 → i ≤ e → e < 30000 →
      q = ethash.calculate_seed_from_epoch e →
      (∀ j, i ≤ j → j < e → ethash.calculate_seed_from_epoch j ≠ q) →
      (ethash.epochScanAux q fuel i (ethash.calculate_seed_from_epoch i)).1 = some e := by
  intro fuel
  induction fuel with
  | zero => intro i e q hif hie he hq hne; omega
  | succ fuel ih =>
    intro i e q hif hie he hq hne
    simp only [ethash.epochScanAux]
    by_cases hieq : i = e
    · subst hieq
      rw [if_pos (by rw [hq]; simp [ethash.is_equal])]
    · have hilt : i < e := by omega
      rw [if_neg (fun hc => (hne i (Nat.le_refl i) hilt) ((is_equal_iff _ _).mp hc))]
      have hstep : ethash.keccak256H (ethash.calculate_seed_from_epoch i) =
          ethash.calculate_seed_from_epoch (i + 1) := rfl
      rw [hstep]
      exact ih (i + 1) e q (by omega) (by omega) he hq
        (fun j hj1 hj2 => hne j (by omega) hj2)

end ScanLemmas

/-- Claim C5 (amended): for every epoch `e < 30000`, provided the cached
pair is absent or consistent — `(n, seed(n))` for some `n ≤ e` — and the
seeds `seed(0) .. seed(e)` are pairwise distinct, the reverse lookup of
`seed(e)` returns `some e`; and the seed chain satisfies `seed(0) = zeros`
and `seed(k+1) = keccak256(seed(k))`. -/
theorem claim_C5 (e : Nat) (he : e < 30000)
    (cachedNum : Option Nat) (cachedSeed : ethash.hash256)
    (hcache : cachedNum = none ∨
      ∃ n, n ≤ e ∧ cachedNum = some n ∧
        cachedSeed = ethash.calculate_seed_from_epoch n)
    (hdist : ∀ i, i ≤ e → ∀ j, j ≤ e →
      ethash.calculate_seed_from_epoch i = ethash.calculate_seed_from_epoch j → i = j) :
    (ethash.calculate_epoch_from_seed cachedNum cachedSeed
      (ethash.calculate_seed_from_epoch e)).1 = some e ∧
    ethash.calculate_seed_from_epoch 0 = ethash.zero256 ∧
    ∀ k : Nat, ethash.calculate_seed_from_epoch (k + 1) =
      ethash.keccak256H (ethash.calculate_seed_from_epoch k) := by
  refine ⟨?_, rfl, fun k => rfl⟩
  have hscan : (ethash.epochScanAux (ethash.calculate_seed_from_epoch e) 30000 0
      (ethash.calculate_seed_from_epoch 0)).1 = some e :=
    epochScanAux_finds 30000 0 e _ rfl (by omega) he rfl
      (fun j _ hj2 hjq =>
        absurd (hdist j (Nat.le_of_lt hj2) e (Nat.le_refl e) hjq) (Nat.ne_of_lt hj2))
  rcases hcache with hnone | ⟨n, hn, hnum, hseed⟩
  · subst hnone
    simp only [ethash.calculate_epoch_from_seed]
    exact hscan
  · subst hnum
    subst hseed
    simp only [ethash.calculate_epoch_from_seed]
    by_cases h1 : ethash.is_equal (ethash.calculate_seed_from_epoch e)
        (ethash.calculate_seed_from_epoch n) = true
    · rw [if_pos h1]
      have hen : e = n := hdist e (Nat.le_refl e) n hn ((is_equal_iff _ _).mp h1)
      simp [hen]
    · rw [if_neg h1]
      by_cases h2 : ethash.is_equal
          (ethash.keccak256H (ethash.calculate_seed_from_epoch n))
          (ethash.calculate_seed_from_epoch e) = true
      · rw [if_pos h2]
        have hkeq : ethash.calculate_seed_from_epoch (n + 1) =
            ethash.calculate_seed_from_epoch e := (is_equal_iff _ _).mp h2
        have hne2 : n ≠ e := by
          intro hne3
          subst hne3
          exact h1 (by simp [ethash.is_equal])
        have hsucc := hdist (n + 1) (by omega) e (Nat.le_refl e) hkeq
        simp [hsucc]
      · rw [if_neg h2]
        exact hscan

/-- Claim C5 witness: epoch 2 with the consistent cache `(1, seed(1))`. -/
theorem claim_C5_witness :
    2 < 30000 ∧
    ((some 1 : Option Nat) = none ∨
      ∃ n, n ≤ 2 ∧ (some 1 : Option Nat) = some n ∧
        ethash.calculate_seed_from_epoch 1 = ethash.calculate_seed_from_epoch n) ∧
    (∀ i, i ≤ 2 → ∀ j, j ≤ 2 →
      ethash.calculate_seed_from_epoch i = ethash.calculate_seed_from_epoch j → i = j) ∧
    ((ethash.calculate_epoch_from_seed (some 1) (ethash.calculate_seed_from_epoch 1)
      (ethash.calculate_seed_from_epoch 2)).1 = some 2 ∧
    ethash.calculate_seed_from_epoch 0 = ethash.zero256 ∧
    ∀ k : Nat, ethash.calculate_seed_from_epoch (k + 1) =
      ethash.keccak256H (ethash.calculate_seed_from_epoch k)) :=
  ⟨by decide, Or.inr ⟨1, by decide, rfl, rfl⟩, by decide,
    claim_C5 2 (by decide) (some 1) (ethash.calculate_seed_from_epoch 1)
      (Or.inr ⟨1, by decide, rfl, rfl⟩) (by decide)⟩
